import Mathlib

/-!
Verification of the AWS Academy credential extractor script
(.github/workflows/get_aws_access.py).

Python strings are modelled as `List Char`.  The three string-splitting
primitives the script uses are embedded directly:

* `str.split()` (no argument): split on runs of whitespace, discarding
  empty pieces — `splitWs`;
* `str.split(sep)`: split on every occurrence of a one-character
  separator, keeping empty pieces — `splitCh`;
* `str.split(sep, 1)`: split on the first occurrence only — `splitCh1`.

The browser-automation flow is embedded as a trace semantics: each
method produces the list of externally visible actions it performs
together with its outcome, parameterised by the observations the remote
site can produce (whether the login URL is reached in time, the class
attribute of the status indicator, the scraped credential text).
-/

set_option autoImplicit false

namespace GetAwsAccess

/-- Whitespace as recognised by Python `str.split()` (ASCII subset:
space, tab, newline, carriage return, vertical tab, form feed). -/
def isWs (c : Char) : Bool :=
  c = ' ' || c = '\t' || c = '\n' || c = '\r' || c = '\x0b' || c = '\x0c'

/-- Accumulator-based worker for `str.split()`: `acc` holds the current
token, reversed.  Empty pieces are discarded, as Python does for the
no-argument form of `split`. -/
def splitWsAux : List Char → List Char → List (List Char)
  | [], acc => if acc = [] then [] else [acc.reverse]
  | c :: cs, acc =>
      if isWs c then
        if acc = [] then splitWsAux cs [] else acc.reverse :: splitWsAux cs []
      else
        splitWsAux cs (c :: acc)

/-- Python `s.split()`: whitespace-split, no empty tokens. -/
def splitWs (s : List Char) : List (List Char) := splitWsAux s []

/-- Accumulator-based worker for `str.split(sep)`: splits at every
occurrence of `sep`, keeping empty pieces. -/
def splitChAux (sep : Char) : List Char → List Char → List (List Char)
  | [], acc => [acc.reverse]
  | c :: cs, acc =>
      if c = sep then acc.reverse :: splitChAux sep cs []
      else splitChAux sep cs (c :: acc)

/-- Python `s.split(sep)` for a one-character separator. -/
def splitCh (sep : Char) (s : List Char) : List (List Char) := splitChAux sep s []

/-- Worker for `str.split(sep, 1)`: splits at the first occurrence of
`sep` only; the remainder is returned whole. -/
def splitCh1Aux (sep : Char) : List Char → List Char → List (List Char)
  | [], acc => [acc.reverse]
  | c :: cs, acc =>
      if c = sep then [acc.reverse, cs]
      else splitCh1Aux sep cs (c :: acc)

/-- Python `s.split(sep, 1)` for a one-character separator. -/
def splitCh1 (sep : Char) (s : List Char) : List (List Char) := splitCh1Aux sep s []

/-- `AWS.get_secrets`:

    info = info_raw.split()
    aws_access_key_id = info[1].split('=')[1]
    aws_secret_access_key = info[2].split('=')[1]
    aws_session_token = info[3].split('=', 1)[1]
    return aws_access_key_id, aws_secret_access_key, aws_session_token

An out-of-range index (too few whitespace tokens, or a token without an
`=` so that its `=`-split has a single element) raises `IndexError` in
Python; this is modelled by `none`. -/
def get_secrets (info_raw : List Char) : Option (List Char × List Char × List Char) := do
  let info := splitWs info_raw
  let t1 ← info[1]?
  let aws_access_key_id ← (splitCh '=' t1)[1]?
  let t2 ← info[2]?
  let aws_secret_access_key ← (splitCh '=' t2)[1]?
  let t3 ← info[3]?
  let aws_session_token ← (splitCh1 '=' t3)[1]?
  pure (aws_access_key_id, aws_secret_access_key, aws_session_token)

example :
    get_secrets ("info aws_access_key_id=AKIA123 aws_secret_access_key=SECRET456 aws_session_token=TOK=EN=789".toList)
      = some ("AKIA123".toList, "SECRET456".toList, "TOK=EN=789".toList) := by decide

example : get_secrets ("a b".toList) = none := by decide

example : get_secrets ("x b= c= d=".toList) = some ([], [], []) := by decide

/-- Whitespace-free separator-free list of tokens joined by single spaces. -/
def joinTokens : List (List Char) → List Char
  | [] => []
  | [t] => t
  | t :: ts => t ++ ' ' :: joinTokens ts

/-! ### Lemmas about the splitting primitives -/

theorem splitWsAux_no_ws (t : List Char) (ht : ∀ c ∈ t, isWs c = false) :
    ∀ acc : List Char,
      splitWsAux t acc = if acc = [] ∧ t = [] then [] else [acc.reverse ++ t] := by
  induction t with
  | nil =>
      intro acc
      by_cases h : acc = [] <;> simp [splitWsAux, h]
  | cons c cs ih =>
      intro acc
      have hc : isWs c = false := ht c (List.mem_cons_self c cs)
      have hcs : ∀ x ∈ cs, isWs x = false := fun x hx => ht x (List.mem_cons_of_mem c hx)
      simp only [splitWsAux, hc, if_false, Bool.false_eq_true]
      rw [ih hcs (c :: acc)]
      simp

theorem splitWsAux_append_space (t : List Char) (ht : ∀ c ∈ t, isWs c = false) :
    ∀ (rest acc : List Char),
      splitWsAux (t ++ ' ' :: rest) acc =
        if acc = [] ∧ t = [] then splitWsAux rest []
        else (acc.reverse ++ t) :: splitWsAux rest [] := by
  induction t with
  | nil =>
      intro rest acc
      by_cases h : acc = [] <;> simp [splitWsAux, isWs, h]
  | cons c cs ih =>
      intro rest acc
      have hc : isWs c = false := ht c (List.mem_cons_self c cs)
      have hcs : ∀ x ∈ cs, isWs x = false := fun x hx => ht x (List.mem_cons_of_mem c hx)
      simp only [List.cons_append, splitWsAux, hc, if_false, Bool.false_eq_true,
        List.append_eq]
      rw [ih hcs rest (c :: acc)]
      simp

/-- Splitting a space-joined list of nonempty whitespace-free tokens
recovers exactly those tokens. -/
theorem splitWs_joinTokens (ts : List (List Char))
    (h : ∀ t ∈ ts, t ≠ [] ∧ ∀ c ∈ t, isWs c = false) :
    splitWs (joinTokens ts) = ts := by
  induction ts with
  | nil => simp [joinTokens, splitWs, splitWsAux]
  | cons t ts ih =>
      have ht := h t (List.mem_cons_self t ts)
      have hts : ∀ u ∈ ts, u ≠ [] ∧ ∀ c ∈ u, isWs c = false :=
        fun u hu => h u (List.mem_cons_of_mem t hu)
      cases ts with
      | nil =>
          simp only [joinTokens, splitWs]
          rw [splitWsAux_no_ws t ht.2 []]
          simp [ht.1]
      | cons u us =>
          simp only [joinTokens, splitWs]
          rw [splitWsAux_append_space t ht.2 _ []]
          simp only [ht.1, and_false, if_false]
          exact congrArg (t :: ·) (ih hts)

theorem splitChAux_no_sep (sep : Char) (t : List Char) (ht : ∀ c ∈ t, c ≠ sep) :
    ∀ acc : List Char, splitChAux sep t acc = [acc.reverse ++ t] := by
  induction t with
  | nil => intro acc; simp [splitChAux]
  | cons c cs ih =>
      intro acc
      have hc : c ≠ sep := ht c (List.mem_cons_self c cs)
      have hcs : ∀ x ∈ cs, x ≠ sep := fun x hx => ht x (List.mem_cons_of_mem c hx)
      simp only [splitChAux, hc, if_false]
      rw [ih hcs (c :: acc)]
      simp

theorem splitChAux_append_sep (sep : Char) (p : List Char) (hp : ∀ c ∈ p, c ≠ sep) :
    ∀ (rest acc : List Char),
      splitChAux sep (p ++ sep :: rest) acc =
        (acc.reverse ++ p) :: splitChAux sep rest [] := by
  induction p with
  | nil => intro rest acc; simp [splitChAux]
  | cons c cs ih =>
      intro rest acc
      have hc : c ≠ sep := hp c (List.mem_cons_self c cs)
      have hcs : ∀ x ∈ cs, x ≠ sep := fun x hx => hp x (List.mem_cons_of_mem c hx)
      simp only [List.cons_append, splitChAux, hc, if_false, List.append_eq]
      rw [ih hcs rest (c :: acc)]
      simp

theorem splitCh1Aux_no_sep (sep : Char) (t : List Char) (ht : ∀ c ∈ t, c ≠ sep) :
    ∀ acc : List Char, splitCh1Aux sep t acc = [acc.reverse ++ t] := by
  induction t with
  | nil => intro acc; simp [splitCh1Aux]
  | cons c cs ih =>
      intro acc
      have hc : c ≠ sep := ht c (List.mem_cons_self c cs)
      have hcs : ∀ x ∈ cs, x ≠ sep := fun x hx => ht x (List.mem_cons_of_mem c hx)
      simp only [splitCh1Aux, hc, if_false]
      rw [ih hcs (c :: acc)]
      simp

theorem splitCh1Aux_append_sep (sep : Char) (p : List Char) (hp : ∀ c ∈ p, c ≠ sep) :
    ∀ (rest acc : List Char),
      splitCh1Aux sep (p ++ sep :: rest) acc = [acc.reverse ++ p, rest] := by
  induction p with
  | nil => intro rest acc; simp [splitCh1Aux]
  | cons c cs ih =>
      intro rest acc
      have hc : c ≠ sep := hp c (List.mem_cons_self c cs)
      have hcs : ∀ x ∈ cs, x ≠ sep := fun x hx => hp x (List.mem_cons_of_mem c hx)
      simp only [List.cons_append, splitCh1Aux, hc, if_false, List.append_eq]
      rw [ih hcs rest (c :: acc)]
      simp

/-- The head of an `=`-style split is the longest separator-free
prefix of the input. -/
theorem splitChAux_head (sep : Char) (q : List Char) :
    ∀ acc : List Char,
      (splitChAux sep q acc).head? = some (acc.reverse ++ q.takeWhile (fun c => c != sep)) := by
  induction q with
  | nil => intro acc; simp [splitChAux]
  | cons c cs ih =>
      intro acc
      by_cases hc : c = sep
      · subst hc; simp [splitChAux, List.takeWhile]
      · simp only [splitChAux, hc, if_false]
        rw [ih (c :: acc)]
        simp [List.takeWhile_cons, hc]

/-- Unfolding of `get_secrets` as a chain of `Option.bind`. -/
theorem get_secrets_eq (s : List Char) :
    get_secrets s =
      ((splitWs s)[1]?).bind fun t1 =>
      ((splitCh '=' t1)[1]?).bind fun a =>
      ((splitWs s)[2]?).bind fun t2 =>
      ((splitCh '=' t2)[1]?).bind fun b =>
      ((splitWs s)[3]?).bind fun t3 =>
      ((splitCh1 '=' t3)[1]?).bind fun c =>
      some (a, b, c) := rfl

theorem opt_bind_none {α β : Type} (o : Option α) (f : α → Option β)
    (h : ∀ a, f a = none) : o.bind f = none := by
  cases o with
  | none => rfl
  | some a => exact h a

/-! ### Claim theorems about `get_secrets` -/

/-- C1: for every well-formed raw string of the form
`"<ignored> aws_access_key_id=K aws_secret_access_key=S aws_session_token=T"`
(one ignored leading token, then the three key tokens), `get_secrets`
returns exactly `(K, S, T)`, where `T` is everything after the first `=`
of token 3 and so may keep further `=` characters intact. -/
theorem get_secrets_wellformed (ig K S T : List Char)
    (hig : ig ≠ []) (higw : ∀ c ∈ ig, isWs c = false)
    (hKw : ∀ c ∈ K, isWs c = false) (hKe : ∀ c ∈ K, c ≠ '=')
    (hSw : ∀ c ∈ S, isWs c = false) (hSe : ∀ c ∈ S, c ≠ '=')
    (hTw : ∀ c ∈ T, isWs c = false) :
    get_secrets (joinTokens
      [ig,
       "aws_access_key_id".toList ++ '=' :: K,
       "aws_secret_access_key".toList ++ '=' :: S,
       "aws_session_token".toList ++ '=' :: T]) = some (K, S, T) := by
  have hwall : ∀ (p : List Char), (∀ c ∈ p, isWs c = false) →
      ∀ (V : List Char), (∀ c ∈ V, isWs c = false) →
      ∀ c ∈ p ++ '=' :: V, isWs c = false := by
    intro p hp V hV c hc
    rcases List.mem_append.mp hc with h | h
    · exact hp c h
    · rcases List.mem_cons.mp h with h | h
      · subst h; decide
      · exact hV c h
  have hsplit : splitWs (joinTokens
      [ig,
       "aws_access_key_id".toList ++ '=' :: K,
       "aws_secret_access_key".toList ++ '=' :: S,
       "aws_session_token".toList ++ '=' :: T]) =
      [ig,
       "aws_access_key_id".toList ++ '=' :: K,
       "aws_secret_access_key".toList ++ '=' :: S,
       "aws_session_token".toList ++ '=' :: T] := by
    apply splitWs_joinTokens
    intro t ht
    rcases List.mem_cons.mp ht with h | h
    · subst h; exact ⟨hig, higw⟩
    rcases List.mem_cons.mp h with h | h
    · subst h
      exact ⟨by simp, hwall _ (by decide) K hKw⟩
    rcases List.mem_cons.mp h with h | h
    · subst h
      exact ⟨by simp, hwall _ (by decide) S hSw⟩
    rcases List.mem_cons.mp h with h | h
    · subst h
      exact ⟨by simp, hwall _ (by decide) T hTw⟩
    · exact absurd h (List.not_mem_nil t)
  have e1 : splitCh '=' ("aws_access_key_id".toList ++ '=' :: K) =
      ["aws_access_key_id".toList, K] := by
    unfold splitCh
    rw [splitChAux_append_sep '=' _ (by decide) K [], splitChAux_no_sep '=' K hKe []]
    simp
  have e2 : splitCh '=' ("aws_secret_access_key".toList ++ '=' :: S) =
      ["aws_secret_access_key".toList, S] := by
    unfold splitCh
    rw [splitChAux_append_sep '=' _ (by decide) S [], splitChAux_no_sep '=' S hSe []]
    simp
  have e3 : splitCh1 '=' ("aws_session_token".toList ++ '=' :: T) =
      ["aws_session_token".toList, T] := by
    unfold splitCh1
    rw [splitCh1Aux_append_sep '=' _ (by decide) T []]
    simp
  rw [get_secrets_eq, hsplit]
  simp only [List.getElem?_cons_succ, List.getElem?_cons_zero, Option.some_bind]
  rw [e1, e2, e3]
  simp only [List.getElem?_cons_succ, List.getElem?_cons_zero, Option.some_bind]

/-- C1 witness: the end-to-end example from the specification. -/
theorem get_secrets_wellformed_witness :
    get_secrets ("info aws_access_key_id=AKIA123 aws_secret_access_key=SECRET456 aws_session_token=TOK=EN=789".toList)
      = some ("AKIA123".toList, "SECRET456".toList, "TOK=EN=789".toList) := by
  have h := get_secrets_wellformed ("info".toList) ("AKIA123".toList)
    ("SECRET456".toList) ("TOK=EN=789".toList)
    (by decide) (by decide) (by decide) (by decide) (by decide) (by decide) (by decide)
  have e : "info aws_access_key_id=AKIA123 aws_secret_access_key=SECRET456 aws_session_token=TOK=EN=789".toList
      = joinTokens
        ["info".toList,
         "aws_access_key_id".toList ++ '=' :: "AKIA123".toList,
         "aws_secret_access_key".toList ++ '=' :: "SECRET456".toList,
         "aws_session_token".toList ++ '=' :: "TOK=EN=789".toList] := by decide
  rw [e]
  exact h

/-- C2: on a raw string whose whitespace-split has fewer than 4 tokens,
or in which one of tokens 1, 2, 3 has no `=` character, `get_secrets`
fails (the modelled `IndexError`, `none`) and never returns a triple. -/
theorem get_secrets_malformed (s : List Char)
    (h : (splitWs s).length < 4 ∨
      ∃ i t, i ∈ ([1, 2, 3] : List Nat) ∧ (splitWs s)[i]? = some t ∧ ∀ c ∈ t, c ≠ '=') :
    get_secrets s = none := by
  rw [get_secrets_eq]
  rcases h with h | ⟨i, t, hi, ht, hne⟩
  · have h3 : (splitWs s)[3]? = none := List.getElem?_eq_none (by omega)
    apply opt_bind_none; intro t1
    apply opt_bind_none; intro a
    apply opt_bind_none; intro t2
    apply opt_bind_none; intro b
    rw [h3]
    rfl
  · have hsplit : splitCh '=' t = [t] := splitChAux_no_sep '=' t hne []
    have hsplit1 : splitCh1 '=' t = [t] := splitCh1Aux_no_sep '=' t hne []
    have hi' : i = 1 ∨ i = 2 ∨ i = 3 := by simpa using hi
    rcases hi' with rfl | rfl | rfl
    · rw [ht]
      simp [hsplit]
    · apply opt_bind_none; intro t1
      apply opt_bind_none; intro a
      rw [ht]
      simp [hsplit]
    · apply opt_bind_none; intro t1
      apply opt_bind_none; intro a
      apply opt_bind_none; intro t2
      apply opt_bind_none; intro b
      rw [ht]
      simp [hsplit1]

/-- C2 witness: a two-token input fails. -/
theorem get_secrets_malformed_witness : get_secrets ("a b".toList) = none :=
  get_secrets_malformed ("a b".toList) (Or.inl (by decide))

/-- C9: with at least 4 tokens and an `=` in each of tokens 1-3, the
result of `get_secrets` is a function of tokens 1, 2 and 3 alone: the
leading token `t0` and any tokens in `rest` do not appear in the result,
and for tokens 1 and 2 only the text between the first and the second
`=` is returned, anything after a second `=` being silently dropped. -/
theorem get_secrets_depends_on_tokens (t0 p1 q1 p2 q2 p3 q3 : List Char)
    (rest : List (List Char))
    (h0 : t0 ≠ []) (h0w : ∀ c ∈ t0, isWs c = false)
    (h1w : ∀ c ∈ p1 ++ '=' :: q1, isWs c = false) (hp1 : ∀ c ∈ p1, c ≠ '=')
    (h2w : ∀ c ∈ p2 ++ '=' :: q2, isWs c = false) (hp2 : ∀ c ∈ p2, c ≠ '=')
    (h3w : ∀ c ∈ p3 ++ '=' :: q3, isWs c = false) (hp3 : ∀ c ∈ p3, c ≠ '=')
    (hr : ∀ u ∈ rest, u ≠ [] ∧ ∀ c ∈ u, isWs c = false) :
    get_secrets (joinTokens
      (t0 :: (p1 ++ '=' :: q1) :: (p2 ++ '=' :: q2) :: (p3 ++ '=' :: q3) :: rest)) =
      some (q1.takeWhile (fun c => c != '='),
            q2.takeWhile (fun c => c != '='), q3) := by
  have hsplit : splitWs (joinTokens
      (t0 :: (p1 ++ '=' :: q1) :: (p2 ++ '=' :: q2) :: (p3 ++ '=' :: q3) :: rest)) =
      t0 :: (p1 ++ '=' :: q1) :: (p2 ++ '=' :: q2) :: (p3 ++ '=' :: q3) :: rest := by
    apply splitWs_joinTokens
    intro t ht
    rcases List.mem_cons.mp ht with h | h
    · subst h; exact ⟨h0, h0w⟩
    rcases List.mem_cons.mp h with h | h
    · subst h; exact ⟨by simp, h1w⟩
    rcases List.mem_cons.mp h with h | h
    · subst h; exact ⟨by simp, h2w⟩
    rcases List.mem_cons.mp h with h | h
    · subst h; exact ⟨by simp, h3w⟩
    · exact hr t h
  have e1 : (splitCh '=' (p1 ++ '=' :: q1))[1]? =
      some (q1.takeWhile (fun c => c != '=')) := by
    unfold splitCh
    rw [splitChAux_append_sep '=' p1 hp1 q1 []]
    rw [List.getElem?_cons_succ, ← List.head?_eq_getElem?]
    rw [splitChAux_head '=' q1 []]
    simp
  have e2 : (splitCh '=' (p2 ++ '=' :: q2))[1]? =
      some (q2.takeWhile (fun c => c != '=')) := by
    unfold splitCh
    rw [splitChAux_append_sep '=' p2 hp2 q2 []]
    rw [List.getElem?_cons_succ, ← List.head?_eq_getElem?]
    rw [splitChAux_head '=' q2 []]
    simp
  have e3 : (splitCh1 '=' (p3 ++ '=' :: q3))[1]? = some q3 := by
    unfold splitCh1
    rw [splitCh1Aux_append_sep '=' p3 hp3 q3 []]
    rfl
  rw [get_secrets_eq, hsplit]
  simp only [List.getElem?_cons_succ, List.getElem?_cons_zero, Option.some_bind]
  rw [e1, e2, e3]
  rfl

/-- C9 witness: token 0 and trailing tokens are ignored and text after a
second `=` in tokens 1 and 2 is dropped without an error. -/
theorem get_secrets_depends_on_tokens_witness :
    get_secrets ("x k=A=JUNK s=B t=C=D tail1 tail2".toList)
      = some ("A".toList, "B".toList, "C=D".toList) := by
  have h := get_secrets_depends_on_tokens ("x".toList)
    ("k".toList) ("A=JUNK".toList) ("s".toList) ("B".toList)
    ("t".toList) ("C=D".toList) ["tail1".toList, "tail2".toList]
    (by decide) (by decide) (by decide) (by decide) (by decide) (by decide)
    (by decide) (by decide) (by decide)
  have e : "x k=A=JUNK s=B t=C=D tail1 tail2".toList
      = joinTokens
        ["x".toList,
         "k".toList ++ '=' :: "A=JUNK".toList,
         "s".toList ++ '=' :: "B".toList,
         "t".toList ++ '=' :: "C=D".toList,
         "tail1".toList, "tail2".toList] := by decide
  rw [e]
  rw [h]
  decide

/-! ### Inversion lemmas for successful parses -/

theorem dropWhile_shape {α : Type} (p : α → Bool) (l : List α) :
    l.dropWhile p = [] ∨ ∃ x xs, l.dropWhile p = x :: xs ∧ p x = false := by
  induction l with
  | nil => exact Or.inl rfl
  | cons a as ih =>
      by_cases h : p a
      · simpa [List.dropWhile_cons, h] using ih
      · exact Or.inr ⟨a, as, by simp [List.dropWhile_cons, h], by simp [h]⟩

/-- If index 1 of a full `=`-split is `some a`, the input decomposes as
`p ++ '=' :: a ++ r` with `p` and `a` free of `=` and `r` empty or
starting with `=`. -/
theorem splitChAux_get1_inv (t : List Char) :
    ∀ acc a : List Char, (splitChAux '=' t acc)[1]? = some a →
      ∃ p r, t = p ++ '=' :: a ++ r ∧ (∀ x ∈ p, x ≠ '=') ∧
        (∀ x ∈ a, x ≠ '=') ∧ (r = [] ∨ ∃ r2, r = '=' :: r2) := by
  induction t with
  | nil => intro acc a h; simp [splitChAux] at h
  | cons c cs ih =>
      intro acc a h
      by_cases hc : c = '='
      · subst hc
        rw [show splitChAux '=' ('=' :: cs) acc = acc.reverse :: splitChAux '=' cs []
            from by simp [splitChAux]] at h
        rw [List.getElem?_cons_succ, ← List.head?_eq_getElem?,
          splitChAux_head '=' cs []] at h
        have ha : a = cs.takeWhile (fun x => x != '=') := by
          simpa using h.symm
        refine ⟨[], cs.dropWhile (fun x => x != '='), ?_, by simp, ?_, ?_⟩
        · rw [ha]
          simp [List.takeWhile_append_dropWhile]
        · intro x hx
          rw [ha] at hx
          have := List.mem_takeWhile_imp hx
          simpa using this
        · rcases dropWhile_shape (fun x => x != '=') cs with h0 | ⟨x, xs, hxs, hx⟩
          · exact Or.inl h0
          · refine Or.inr ⟨xs, ?_⟩
            have : x = '=' := by simpa using hx
            rw [hxs, this]
      · rw [show splitChAux '=' (c :: cs) acc = splitChAux '=' cs (c :: acc)
            from by simp [splitChAux, hc]] at h
        obtain ⟨p, r, hdec, hp, ha, hr⟩ := ih (c :: acc) a h
        refine ⟨c :: p, r, by simp [hdec], ?_, ha, hr⟩
        intro y hy
        rcases List.mem_cons.mp hy with rfl | hy
        · exact hc
        · exact hp y hy

/-- If index 1 of a first-occurrence `=`-split is `some c`, the input
decomposes as `p ++ '=' :: c` with `p` free of `=`; `c` is the whole
remainder. -/
theorem splitCh1Aux_get1_inv (t : List Char) :
    ∀ acc c : List Char, (splitCh1Aux '=' t acc)[1]? = some c →
      ∃ p, t = p ++ '=' :: c ∧ ∀ x ∈ p, x ≠ '=' := by
  induction t with
  | nil => intro acc c h; simp [splitCh1Aux] at h
  | cons x xs ih =>
      intro acc c h
      by_cases hx : x = '='
      · subst hx
        rw [show splitCh1Aux '=' ('=' :: xs) acc = [acc.reverse, xs]
            from by simp [splitCh1Aux]] at h
        have : xs = c := by simpa using h
        exact ⟨[], by simp [this], by simp⟩
      · rw [show splitCh1Aux '=' (x :: xs) acc = splitCh1Aux '=' xs (x :: acc)
            from by simp [splitCh1Aux, hx]] at h
        obtain ⟨p, hdec, hp⟩ := ih (x :: acc) c h
        refine ⟨x :: p, by simp [hdec], ?_⟩
        intro y hy
        rcases List.mem_cons.mp hy with rfl | hy
        · exact hx
        · exact hp y hy

/-- C5 counterexample: `get_secrets` can succeed with empty components,
so the claim that every successful parse yields three non-empty strings
is false; the input `"x b= c= d="` parses to three empty strings. -/
theorem get_secrets_nonempty_refuted :
    ¬ (∀ s a b c : List Char, get_secrets s = some (a, b, c) →
        a ≠ [] ∧ b ≠ [] ∧ c ≠ []) := by
  intro h
  exact (h ("x b= c= d=".toList) [] [] [] (by decide)).1 rfl

/-- C5 (amended): on every input on which `get_secrets` succeeds, the
whitespace-split has at least 4 tokens, tokens 1-3 each contain `=`,
and each component is the (possibly empty) substring following the
first `=` of its token — up to the next `=` for tokens 1 and 2, and to
the end of the token for token 3.  Non-emptiness of the components is
not guaranteed. -/
theorem get_secrets_success_shape (s a b c : List Char)
    (h : get_secrets s = some (a, b, c)) :
    4 ≤ (splitWs s).length ∧
    (∃ t1, (splitWs s)[1]? = some t1 ∧ ∃ p r, t1 = p ++ '=' :: a ++ r ∧
        (∀ x ∈ p, x ≠ '=') ∧ (∀ x ∈ a, x ≠ '=') ∧ (r = [] ∨ ∃ r2, r = '=' :: r2)) ∧
    (∃ t2, (splitWs s)[2]? = some t2 ∧ ∃ p r, t2 = p ++ '=' :: b ++ r ∧
        (∀ x ∈ p, x ≠ '=') ∧ (∀ x ∈ b, x ≠ '=') ∧ (r = [] ∨ ∃ r2, r = '=' :: r2)) ∧
    (∃ t3, (splitWs s)[3]? = some t3 ∧ ∃ p, t3 = p ++ '=' :: c ∧ ∀ x ∈ p, x ≠ '=') := by
  rw [get_secrets_eq] at h
  cases e1 : (splitWs s)[1]? with
  | none => rw [e1] at h; exact absurd h (by simp)
  | some t1 =>
  rw [e1, Option.some_bind] at h
  cases e1b : (splitCh '=' t1)[1]? with
  | none => rw [e1b] at h; exact absurd h (by simp)
  | some a0 =>
  rw [e1b, Option.some_bind] at h
  cases e2 : (splitWs s)[2]? with
  | none => rw [e2] at h; exact absurd h (by simp)
  | some t2 =>
  rw [e2, Option.some_bind] at h
  cases e2b : (splitCh '=' t2)[1]? with
  | none => rw [e2b] at h; exact absurd h (by simp)
  | some b0 =>
  rw [e2b, Option.some_bind] at h
  cases e3 : (splitWs s)[3]? with
  | none => rw [e3] at h; exact absurd h (by simp)
  | some t3 =>
  rw [e3, Option.some_bind] at h
  cases e3b : (splitCh1 '=' t3)[1]? with
  | none => rw [e3b] at h; exact absurd h (by simp)
  | some c0 =>
  rw [e3b, Option.some_bind] at h
  have habc : a0 = a ∧ b0 = b ∧ c0 = c := by
    have := Option.some.inj h
    exact ⟨congrArg Prod.fst this, congrArg Prod.fst (congrArg Prod.snd this),
      congrArg Prod.snd (congrArg Prod.snd this)⟩
  obtain ⟨rfl, rfl, rfl⟩ := habc
  refine ⟨?_, ⟨t1, rfl, splitChAux_get1_inv t1 [] a0 e1b⟩,
    ⟨t2, rfl, splitChAux_get1_inv t2 [] b0 e2b⟩,
    ⟨t3, rfl, splitCh1Aux_get1_inv t3 [] c0 e3b⟩⟩
  have h4 : 3 < (splitWs s).length := by
    by_contra hlt
    rw [List.getElem?_eq_none (by omega)] at e3
    exact Option.noConfusion e3
  omega

/-- C5 witness: the amended shape at the concrete input `"w k=A s=B t=C"`. -/
theorem get_secrets_success_shape_witness :
    4 ≤ (splitWs ("w k=A s=B t=C".toList)).length ∧
    (∃ t1, (splitWs ("w k=A s=B t=C".toList))[1]? = some t1 ∧
      ∃ p r, t1 = p ++ '=' :: "A".toList ++ r ∧
        (∀ x ∈ p, x ≠ '=') ∧ (∀ x ∈ "A".toList, x ≠ '=') ∧
        (r = [] ∨ ∃ r2, r = '=' :: r2)) ∧
    (∃ t2, (splitWs ("w k=A s=B t=C".toList))[2]? = some t2 ∧
      ∃ p r, t2 = p ++ '=' :: "B".toList ++ r ∧
        (∀ x ∈ p, x ≠ '=') ∧ (∀ x ∈ "B".toList, x ≠ '=') ∧
        (r = [] ∨ ∃ r2, r = '=' :: r2)) ∧
    (∃ t3, (splitWs ("w k=A s=B t=C".toList))[3]? = some t3 ∧
      ∃ p, t3 = p ++ '=' :: "C".toList ∧ ∀ x ∈ p, x ≠ '=') :=
  get_secrets_success_shape ("w k=A s=B t=C".toList)
    ("A".toList) ("B".toList) ("C".toList) (by decide)

/-! ### Persistence: `set_github_env` -/

/-- `set_github_env`: appends the three credential lines to the given
file content (the file `creds.txt` is opened in append mode):

    with open('creds.txt', 'a') as env_file:
        env_file.write(f"AWS_ACCESS_KEY_ID=...\n")
        env_file.write(f"AWS_SECRET_ACCESS_KEY=...\n")
        env_file.write(f"AWS_SESSION_TOKEN=...\n")

Modelled as a pure function from the prior file content to the new
content. -/
def set_github_env (file aws_access_key_id aws_secret_access_key aws_session_token : List Char) :
    List Char :=
  file ++ ("AWS_ACCESS_KEY_ID=".toList ++ aws_access_key_id ++ ['\n'])
       ++ ("AWS_SECRET_ACCESS_KEY=".toList ++ aws_secret_access_key ++ ['\n'])
       ++ ("AWS_SESSION_TOKEN=".toList ++ aws_session_token ++ ['\n'])

/-- The three `KEY=VALUE` lines one call writes, in the fixed key
order of the source. -/
def credLines (a s t : List Char) : List (List Char) :=
  ["AWS_ACCESS_KEY_ID=".toList ++ a,
   "AWS_SECRET_ACCESS_KEY=".toList ++ s,
   "AWS_SESSION_TOKEN=".toList ++ t]

/-- Newline-terminate each line and concatenate. -/
def joinLines (ls : List (List Char)) : List Char :=
  (ls.map (fun l => l ++ ['\n'])).flatten

theorem joinLines_cons (l : List Char) (ls : List (List Char)) :
    joinLines (l :: ls) = l ++ '\n' :: joinLines ls := by
  simp [joinLines]

/-- Splitting newline-terminated newline-free lines on `'\n'` recovers
the lines (with the trailing empty piece witnessing the final
newline). -/
theorem splitCh_joinLines (ls : List (List Char)) (h : ∀ l ∈ ls, '\n' ∉ l) :
    splitCh '\n' (joinLines ls) = ls ++ [[]] := by
  induction ls with
  | nil => simp [joinLines, splitCh, splitChAux]
  | cons l ls ih =>
      have hl : ∀ x ∈ l, x ≠ '\n' := by
        intro x hx he
        exact h l (List.mem_cons_self l ls) (he ▸ hx)
      have hls : ∀ u ∈ ls, '\n' ∉ u := fun u hu => h u (List.mem_cons_of_mem l hu)
      rw [joinLines_cons]
      show splitChAux '\n' (l ++ '\n' :: joinLines ls) [] = (l :: ls) ++ [[]]
      rw [splitChAux_append_sep '\n' l hl (joinLines ls) []]
      simp only [List.reverse_nil, List.nil_append, List.cons_append]
      exact congrArg (l :: ·) (ih hls)

/-- C3: one call appends exactly three `KEY=VALUE` lines with keys
`AWS_ACCESS_KEY_ID`, `AWS_SECRET_ACCESS_KEY`, `AWS_SESSION_TOKEN` in
that fixed order, one per line, each terminated by a newline: the new
content is the old content followed by the newline-joined `credLines`,
and splitting that appended block on newlines yields exactly the three
lines (plus the empty remainder after the final newline). -/
theorem set_github_env_three_lines (file a s t : List Char)
    (ha : '\n' ∉ a) (hs : '\n' ∉ s) (ht : '\n' ∉ t) :
    set_github_env file a s t = file ++ joinLines (credLines a s t) ∧
    (credLines a s t).length = 3 ∧
    splitCh '\n' (joinLines (credLines a s t)) = credLines a s t ++ [[]] := by
  refine ⟨?_, rfl, ?_⟩
  · simp [set_github_env, credLines, joinLines]
  · apply splitCh_joinLines
    intro l hl
    rcases List.mem_cons.mp hl with rfl | hl
    · simpa [List.mem_append] using fun h => absurd h ha
    rcases List.mem_cons.mp hl with rfl | hl
    · simpa [List.mem_append] using fun h => absurd h hs
    rcases List.mem_cons.mp hl with rfl | hl
    · simpa [List.mem_append] using fun h => absurd h ht
    · exact absurd hl (List.not_mem_nil l)

/-- C3 witness. -/
theorem set_github_env_three_lines_witness :
    set_github_env ("old\n".toList) ("K1".toList) ("K2".toList) ("K3".toList)
        = "old\n".toList ++ joinLines (credLines ("K1".toList) ("K2".toList) ("K3".toList)) ∧
    (credLines ("K1".toList) ("K2".toList) ("K3".toList)).length = 3 ∧
    splitCh '\n' (joinLines (credLines ("K1".toList) ("K2".toList) ("K3".toList)))
        = credLines ("K1".toList) ("K2".toList) ("K3".toList) ++ [[]] :=
  set_github_env_three_lines ("old\n".toList) ("K1".toList) ("K2".toList) ("K3".toList)
    (by decide) (by decide) (by decide)

/-- C4: the function only appends — two successive calls leave the
prior content as an unchanged prefix and the result is that prefix
followed by the six lines of the two calls in call order, with no
deduplication (the triples may even be equal). -/
theorem set_github_env_append_only (file a1 s1 t1 a2 s2 t2 : List Char)
    (ha1 : '\n' ∉ a1) (hs1 : '\n' ∉ s1) (ht1 : '\n' ∉ t1)
    (ha2 : '\n' ∉ a2) (hs2 : '\n' ∉ s2) (ht2 : '\n' ∉ t2) :
    set_github_env (set_github_env file a1 s1 t1) a2 s2 t2
      = file ++ joinLines (credLines a1 s1 t1 ++ credLines a2 s2 t2) ∧
    (credLines a1 s1 t1 ++ credLines a2 s2 t2).length = 6 ∧
    splitCh '\n' (joinLines (credLines a1 s1 t1 ++ credLines a2 s2 t2))
      = (credLines a1 s1 t1 ++ credLines a2 s2 t2) ++ [[]] := by
  refine ⟨?_, rfl, ?_⟩
  · simp [set_github_env, credLines, joinLines]
  · apply splitCh_joinLines
    intro l hl
    have step : ∀ (v : List Char), '\n' ∉ v →
        ∀ (k : List Char), '\n' ∉ k → '\n' ∉ k ++ v := by
      intro v hv k hk h
      rcases List.mem_append.mp h with h | h
      · exact hk h
      · exact hv h
    rcases List.mem_append.mp hl with hl | hl <;>
      [rcases List.mem_cons.mp hl with rfl | hl; rcases List.mem_cons.mp hl with rfl | hl]
    · exact step a1 ha1 _ (by decide)
    · rcases List.mem_cons.mp hl with rfl | hl
      · exact step s1 hs1 _ (by decide)
      rcases List.mem_cons.mp hl with rfl | hl
      · exact step t1 ht1 _ (by decide)
      · exact absurd hl (List.not_mem_nil l)
    · exact step a2 ha2 _ (by decide)
    · rcases List.mem_cons.mp hl with rfl | hl
      · exact step s2 hs2 _ (by decide)
      rcases List.mem_cons.mp hl with rfl | hl
      · exact step t2 ht2 _ (by decide)
      · exact absurd hl (List.not_mem_nil l)

/-- C4 witness: two calls with different triples on an initially empty
file. -/
theorem set_github_env_append_only_witness :
    set_github_env (set_github_env [] ("A".toList) ("B".toList) ("C".toList))
        ("D".toList) ("E".toList) ("F".toList)
      = [] ++ joinLines (credLines ("A".toList) ("B".toList) ("C".toList)
          ++ credLines ("D".toList) ("E".toList) ("F".toList)) ∧
    (credLines ("A".toList) ("B".toList) ("C".toList)
        ++ credLines ("D".toList) ("E".toList) ("F".toList)).length = 6 ∧
    splitCh '\n' (joinLines (credLines ("A".toList) ("B".toList) ("C".toList)
        ++ credLines ("D".toList) ("E".toList) ("F".toList)))
      = (credLines ("A".toList) ("B".toList) ("C".toList)
          ++ credLines ("D".toList) ("E".toList) ("F".toList)) ++ [[]] :=
  set_github_env_append_only [] ("A".toList) ("B".toList) ("C".toList)
    ("D".toList) ("E".toList) ("F".toList)
    (by decide) (by decide) (by decide) (by decide) (by decide) (by decide)

/-- C10: the appended bytes are exactly the verbatim concatenation of
the three `KEY=` prefixes, the unescaped and unvalidated values, and
one newline each; and the number of newlines the call adds is
`3` plus the newlines contained in the values, so the exactly-three-
lines reading holds precisely when no value contains a newline. -/
theorem set_github_env_verbatim (file a s t : List Char) :
    set_github_env file a s t =
      file ++ ("AWS_ACCESS_KEY_ID=".toList ++ a ++ '\n' ::
        ("AWS_SECRET_ACCESS_KEY=".toList ++ s ++ '\n' ::
          ("AWS_SESSION_TOKEN=".toList ++ t ++ ['\n']))) ∧
    (set_github_env file a s t).count '\n' =
      file.count '\n' + 3 + (a.count '\n' + s.count '\n' + t.count '\n') := by
  constructor
  · simp [set_github_env]
  · simp only [set_github_env, List.count_append, List.count_cons, List.count_singleton]
    have k1 : ("AWS_ACCESS_KEY_ID=".toList).count '\n' = 0 := by decide
    have k2 : ("AWS_SECRET_ACCESS_KEY=".toList).count '\n' = 0 := by decide
    have k3 : ("AWS_SESSION_TOKEN=".toList).count '\n' = 0 := by decide
    rw [k1, k2, k3]
    simp
    omega

/-! ### Trace model of the browser automation -/

/-- Prefix test on character lists. -/
def startsWith : List Char → List Char → Bool
  | [], _ => true
  | _ :: _, [] => false
  | a :: as, b :: bs => a = b && startsWith as bs

/-- Python substring containment `needle in hay` on character lists. -/
def containsSub (needle : List Char) : List Char → Bool
  | [] => startsWith needle []
  | c :: cs => startsWith needle (c :: cs) || containsSub needle cs

/-- Externally visible actions of the script: browser commands, log
output, filesystem effects. -/
inductive Event where
  | goto (url : String)
  | click (sel : String)
  | fill (sel : String) (value : String)
  | screenshot (path : String)
  | waitForUrl (url : String)
  | waitForLoadState (st : String)
  | waitForSelector (sel : String)
  | logInfo (msg : String)
  | logError (msg : String)
  | makedirs (dir : String)
  | appendCreds (a s t : List Char)
deriving DecidableEq, Repr

/-- Python exceptions as far as the script distinguishes them.
`excFrom` is a `raise Exception(msg)` inside an `except` block, whose
implicit chaining records the caught exception as its cause;
`wrapped` is the final `raise Exception(error)` of the entry point,
which wraps the caught error object. -/
inductive PyErr where
  | timeoutErr (op : String)
  | indexError
  | excFrom (msg : String) (cause : PyErr)
  | wrapped (cause : PyErr)
deriving DecidableEq, Repr

def loginUrl : String := "https://www.awsacademy.com/vforcesite/LMS_Login"

def loginSuccessUrl : String := "https://awsacademy.instructure.com/?login_success=1"

def loginFailMsg : String :=
  "Login falhou! Verifique suas credenciais ou se o site mudou o layout."

def courseUrl (conta : String) : String :=
  "https://awsacademy.instructure.com/courses/" ++ conta ++ "/modules/items/12498015"

/-- Count of the occurrences of one event in a trace. -/
def countEvent (x : Event) : List Event → Nat
  | [] => 0
  | y :: ys => (if y = x then 1 else 0) + countEvent x ys

/-- `AWS._login`, as the trace of actions it performs and its outcome.
`loginOk` is the single external observation: whether
`wait_for_url(loginSuccessUrl, timeout=15000)` returns before its
15-second timeout.  On timeout the method logs an error, takes the
diagnostic screenshot, and raises a generic `Exception` whose implicit
context is the caught timeout error.  `none` means normal return. -/
def login_trace (loginOk : Bool) (email password : String) : List Event × Option PyErr :=
  let pre : List Event :=
    [Event.logInfo "[*] Fazendo login...",
     Event.goto loginUrl,
     Event.click "body > div.splash-body > a:nth-child(1) > button",
     Event.screenshot "screenshots/1-click_start.png",
     Event.fill "#pseudonym_session_unique_id" email,
     Event.fill "#pseudonym_session_password" password,
     Event.screenshot "screenshots/2-send_data.png",
     Event.click "#login_form > div.ic-Login__actions > div.ic-Form-control.ic-Form-control--login > input",
     Event.waitForUrl loginSuccessUrl]
  if loginOk then
    (pre ++ [Event.logInfo "[+] Login concluído com sucesso",
             Event.screenshot "screenshots/3-conclude_login.png"], none)
  else
    (pre ++ [Event.logError "[!] Falha no login: credenciais inválidas ou página não carregou corretamente",
             Event.screenshot "screenshots/3-login_error.png"],
     some (PyErr.excFrom loginFailMsg (PyErr.timeoutErr "wait_for_url")))

/-- `AWS.configure_aws`, as a trace plus outcome.  External
observations: `vmstatusOk` — whether the `#vmstatus` element attaches
within its 30-second bounded wait; `classe` — the class attribute of
the status indicator; `info_raw` — the text content scraped at the end.
The unbounded waits (timeout 0) are modelled as succeeding, since they
either hang forever or succeed.  Elements resolved by bounded `click`
and `fill` are assumed present, as in the source happy path. -/
def configure_aws_trace (conta : String) (vmstatusOk : Bool)
    (classe info_raw : List Char) : List Event × Except PyErr (List Char) :=
  let pre : List Event :=
    [Event.logInfo "[+] Entrando na AWS",
     Event.goto (courseUrl conta),
     Event.waitForLoadState "domcontentloaded",
     Event.screenshot "screenshots/4-configure_aws.png",
     Event.logInfo "[*] Verificando status da conta",
     Event.waitForSelector "#vmstatus"]
  if vmstatusOk then
    (pre ++ [Event.screenshot "screenshots/5-configure_aws_status.png"]
      ++ (if containsSub ("led-green".toList) classe then []
          else [Event.logInfo "[*] Inicia a conta da AWS",
                Event.click "#launchclabsbtn",
                Event.waitForSelector "#vmstatus.led-green"])
      ++ [Event.logInfo "[*] Coletando informações da AWS",
          Event.click "#detailbtn2",
          Event.click "#clikeyboxbtn",
          Event.screenshot "screenshots/6-show_aws_credentials.png",
          Event.waitForSelector "#clikeybox > pre > span"],
     Except.ok info_raw)
  else
    (pre, Except.error (PyErr.timeoutErr "#vmstatus"))

/-- The timestamped error screenshot path of the entry point:
`os.path.join("screenshots", f"screenshot_error_TIMESTAMP.png")`. -/
def errScreenshotPath (ts : Nat) : String :=
  "screenshots/screenshot_error_" ++ toString ts ++ ".png"

/-- The except-block of the entry point: ensure the screenshots
directory exists, save a timestamped screenshot, log its path. -/
def errHandlerTrace (ts : Nat) : List Event :=
  [Event.makedirs "screenshots",
   Event.screenshot (errScreenshotPath ts),
   Event.logInfo ("Screenshot salvo em: " ++ errScreenshotPath ts)]

/-- The `__main__` block.  `AWS(EMAIL, SENHA)` starts the browser and
logs in inside `__init__`, before the `try` block, so a login failure
propagates without the error handler running.  Inside the `try`,
`configure_aws`, `get_secrets` and `set_github_env` run in sequence;
any error reaches the handler, which appends `errHandlerTrace` and
re-raises the caught error wrapped in a new `Exception`. -/
def main_trace (loginOk vmstatusOk : Bool) (classe info_raw : List Char)
    (email password : String) (ts : Nat) : List Event × Option PyErr :=
  let started : List Event := [Event.logInfo "[+] Navegador iniciado"]
  let lr := login_trace loginOk email password
  match lr.2 with
  | some e => (started ++ lr.1, some e)
  | none =>
    let cr := configure_aws_trace "130670" vmstatusOk classe info_raw
    match cr.2 with
    | Except.error e =>
        (started ++ lr.1 ++ cr.1 ++ errHandlerTrace ts, some (PyErr.wrapped e))
    | Except.ok raw =>
      match get_secrets raw with
      | none =>
          (started ++ lr.1 ++ cr.1 ++ errHandlerTrace ts,
           some (PyErr.wrapped PyErr.indexError))
      | some (a, b, c) =>
          (started ++ lr.1 ++ cr.1
            ++ [Event.logInfo "[+] Dados coletados", Event.appendCreds a b c], none)

/-! ### Claim theorems about the automation flow -/

/-- C8: in `configure_aws`, when the status check runs, the activation
control `#launchclabsbtn` is clicked exactly once when the class
attribute does not contain `led-green`, and never when it does. -/
theorem configure_aws_activation_once (conta : String) (classe info_raw : List Char) :
    countEvent (Event.click "#launchclabsbtn")
        (configure_aws_trace conta true classe info_raw).1 =
      if containsSub ("led-green".toList) classe then 0 else 1 := by
  cases hgb : containsSub ("led-green".toList) classe with
  | false =>
      have h2 : containsSub ['l', 'e', 'd', '-', 'g', 'r', 'e', 'e', 'n'] classe = false := hgb
      simp [configure_aws_trace, countEvent, h2]
  | true =>
      have h2 : containsSub ['l', 'e', 'd', '-', 'g', 'r', 'e', 'e', 'n'] classe = true := hgb
      simp [configure_aws_trace, countEvent, h2]

/-- C7: when the login success URL is not reached within the bounded
wait, the run fails with the login exception whose implicit cause is
the underlying timeout, after capturing the diagnostic screenshot; the
URL wait is attempted exactly once (no retry); and no credential
extraction action (course navigation, detail clicks, credential
persistence) ever appears in the trace. -/
theorem login_timeout_fails_before_extraction (vmstatusOk : Bool)
    (classe info_raw : List Char) (email password : String) (ts : Nat) :
    (main_trace false vmstatusOk classe info_raw email password ts).2 =
        some (PyErr.excFrom loginFailMsg (PyErr.timeoutErr "wait_for_url")) ∧
    Event.screenshot "screenshots/3-login_error.png"
        ∈ (main_trace false vmstatusOk classe info_raw email password ts).1 ∧
    countEvent (Event.waitForUrl loginSuccessUrl)
        (main_trace false vmstatusOk classe info_raw email password ts).1 = 1 ∧
    Event.goto (courseUrl "130670")
        ∉ (main_trace false vmstatusOk classe info_raw email password ts).1 ∧
    Event.click "#detailbtn2"
        ∉ (main_trace false vmstatusOk classe info_raw email password ts).1 ∧
    ∀ a b c : List Char,
      Event.appendCreds a b c
        ∉ (main_trace false vmstatusOk classe info_raw email password ts).1 := by
  simp [main_trace, login_trace, countEvent, loginUrl, loginSuccessUrl, courseUrl,
    loginFailMsg]

/-- C6 counterexample: on an authentication failure the entry point
raises, but the error handler of the `try` block never runs — the
trace contains neither the `makedirs` call nor the timestamped error
screenshot, because `AWS.__init__` performs the login before the `try`
block is entered. -/
theorem main_no_handler_on_auth_failure :
    (main_trace false true [] [] "user" "pw" 0).2.isSome = true ∧
    Event.makedirs "screenshots" ∉ (main_trace false true [] [] "user" "pw" 0).1 ∧
    Event.screenshot (errScreenshotPath 0)
      ∉ (main_trace false true [] [] "user" "pw" 0).1 := by
  decide

/-- C6 (amended): whenever extraction raises inside the `try` block of
the entry point (the bounded status wait times out, or the scraped text
fails to parse), the orchestration ensures the diagnostics directory
exists, captures the timestamped screenshot, logs the destination path
(the three actions of `errHandlerTrace`, in order, at the end of the
trace), and re-raises the caught error wrapped in a new `Exception`, so
the process terminates with non-zero status.  Authentication failures,
raised during construction before the `try` block, propagate without
this handling. -/
theorem main_handler_on_extraction_failure (vmstatusOk : Bool)
    (classe info_raw : List Char) (email password : String) (ts : Nat)
    (h : vmstatusOk = false ∨ get_secrets info_raw = none) :
    ∃ pre e,
      main_trace true vmstatusOk classe info_raw email password ts =
        (pre ++ errHandlerTrace ts, some (PyErr.wrapped e)) := by
  cases vmstatusOk with
  | false =>
      refine ⟨[Event.logInfo "[+] Navegador iniciado"]
          ++ (login_trace true email password).1
          ++ (configure_aws_trace "130670" false classe info_raw).1,
        PyErr.timeoutErr "#vmstatus", ?_⟩
      simp [main_trace, login_trace, configure_aws_trace]
  | true =>
      have hp : get_secrets info_raw = none := by
        rcases h with h | h
        · exact absurd h (by simp)
        · exact h
      refine ⟨[Event.logInfo "[+] Navegador iniciado"]
          ++ (login_trace true email password).1
          ++ (configure_aws_trace "130670" true classe info_raw).1,
        PyErr.indexError, ?_⟩
      simp [main_trace, login_trace, configure_aws_trace, hp]

/-- C6 witness: an unparsable scraped text reaches the handler. -/
theorem main_handler_on_extraction_failure_witness :
    ∃ pre e,
      main_trace true true [] [] "user" "pw" 7 =
        (pre ++ errHandlerTrace 7, some (PyErr.wrapped e)) :=
  main_handler_on_extraction_failure true [] [] "user" "pw" 7 (Or.inr (by decide))

end GetAwsAccess
